import Mathlib

set_option maxRecDepth 100000

/-!
# Verification of the CloudWatch error-alert engine

Shallow embedding of the core of `scripts/cloudwatch_alert.py`:
signature extraction (`extract_error_key`), grouping (`group_errors`),
noise classification (`classify_groups`) and the persistent error
history (`update_history` and its expiry step).

Modelling conventions:
* Python strings are `String` / `List Char`; the regex character class
  `\w` is modelled as ASCII alphanumerics plus underscore and `\s` as the
  ASCII whitespace characters (the messages handled by the script are
  ASCII log lines).
* Each `re.sub` call in the source uses a concrete pattern whose
  matching behaviour is deterministic; every substitution is embedded as
  an executable left-to-right scanner that mirrors the leftmost-match,
  greedy semantics of the Python `re` module for that concrete pattern.
* Dates handled by the history store are ISO `YYYY-MM-DD` strings whose
  lexicographic order coincides with calendar order; they are modelled
  as integer day numbers.  The script reads "today" from two clocks
  (KST for `_today_str`, the local clock for the expiry cutoff), so the
  embedded `update_history` takes both dates as parameters.
-/

/-- ASCII model of Python's `\s` (whitespace) character class,
which is also the set stripped by `str.strip()`. -/
def isPySpace (c : Char) : Bool :=
  c = ' ' || c = '\t' || c = '\n' || c = '\x0d' || c = '\x0b' || c = '\x0c'

/-- ASCII model of Python's `\w` (word) character class. -/
def isWordChar (c : Char) : Bool :=
  c.isAlphanum || c = '_'

/-- The character class `[\w$.]` used for Java identifier paths. -/
def isTokChar (c : Char) : Bool :=
  isWordChar c || c = '$' || c = '.'

/-- Lowercase hexadecimal digit, the class `[0-9a-f]` (line 213/239/249). -/
def isLowerHex (c : Char) : Bool :=
  c.isDigit || ('a' ≤ c && c ≤ 'f')

/-- Python `str.strip()`: drop leading and trailing whitespace. -/
def pstrip (l : List Char) : List Char :=
  ((l.dropWhile isPySpace).reverse.dropWhile isPySpace).reverse

/-!
## Token-wise substitutions

`re.sub(r"\b[0-9a-f]{8,}\b", "{id}", s)` and `re.sub(r"\b\d{5,}\b",
"{num}", s)` replace exactly the maximal runs of word characters that
consist entirely of the given digit class and have at least the given
length: `\b` only holds at the ends of a maximal word run, so a match
must cover a whole maximal run.  `subTokens f` rewrites every maximal
word run of a string through `f` and keeps separators unchanged.
-/

/-- Worker for `subTokens`: scan the string, accumulating the current
word run in reverse; on leaving a run, emit it through `f`. -/
def subTokensAux (f : List Char → List Char) : List Char → List Char → List Char
  | run, [] => if run.isEmpty then [] else f run.reverse
  | run, c :: cs =>
    if isWordChar c then subTokensAux f (c :: run) cs
    else (if run.isEmpty then [] else f run.reverse) ++ (c :: subTokensAux f [] cs)

/-- Apply `f` to every maximal run of word characters. -/
def subTokens (f : List Char → List Char) (s : List Char) : List Char :=
  subTokensAux f [] s

/-- Per-token action of `re.sub(r"\b[0-9a-f]{8,}\b", "{id}", s)`. -/
def hexTok (run : List Char) : List Char :=
  if 8 ≤ run.length && run.all isLowerHex then "\x7bid\x7d".toList else run

/-- Per-token action of `re.sub(r"\b\d{5,}\b", "{num}", s)`. -/
def numTok (run : List Char) : List Char :=
  if 5 ≤ run.length && run.all Char.isDigit then "\x7bnum\x7d".toList else run

/-- `re.sub(r"\b[0-9a-f]{8,}\b", "{id}", s)`. -/
def subHexId (s : List Char) : List Char := subTokens hexTok s

/-- `re.sub(r"\b\d{5,}\b", "{num}", s)`. -/
def subNum (s : List Char) : List Char := subTokens numTok s

/-!
## Scanning substitutions

The remaining `re.sub` calls are embedded through a generic leftmost
scanner: at each position a matcher either yields a replacement
together with the number of consumed characters, or the original
character is copied.  Every matcher below consumes at least one
character on success, and the scanner resumes after the replaced
segment, as `re.sub` does.
-/

/-- Worker for `scanSub`: the first argument counts characters still to
be discarded as part of the last match. -/
def scanSubAux (tryFn : List Char → Option (List Char × Nat)) : Nat → List Char → List Char
  | _, [] => []
  | n + 1, _ :: cs => scanSubAux tryFn n cs
  | 0, c :: cs =>
    match tryFn (c :: cs) with
    | some (rep, consumed) => rep ++ scanSubAux tryFn (consumed - 1) cs
    | none => c :: scanSubAux tryFn 0 cs

/-- Generic left-to-right substitution scanner.  On a match at the
current position, `tryFn` yields the replacement and the count of
consumed characters (always ≥ 1 for the matchers used here); the
consumed characters are dropped and the scan resumes after them. -/
def scanSub (tryFn : List Char → Option (List Char × Nat)) (s : List Char) : List Char :=
  scanSubAux tryFn 0 s

/-- Matcher for `https?://\S+` (lines 215/240). -/
def tryUrl (s : List Char) : Option (List Char × Nat) :=
  if "https://".toList.isPrefixOf s then
    let v := (s.drop 8).takeWhile (fun c => !isPySpace c)
    if v.isEmpty then none else some ("\x7burl\x7d".toList, 8 + v.length)
  else if "http://".toList.isPrefixOf s then
    let v := (s.drop 7).takeWhile (fun c => !isPySpace c)
    if v.isEmpty then none else some ("\x7burl\x7d".toList, 7 + v.length)
  else none

/-- `re.sub(r"https?://\S+", "{url}", s)`. -/
def subUrl (s : List Char) : List Char := scanSub tryUrl s

/-- Matcher for `(w1|w2|...)[=:]\s*\S+` with replacement `\1={val}`
(lines 217/241).  The alternative words are pairwise non-prefixes of
each other, so at most one can match at a given position. -/
def tryKV (words : List (List Char)) (s : List Char) : Option (List Char × Nat) :=
  match words with
  | [] => none
  | w :: ws =>
    if w.isPrefixOf s then
      match (s.drop w.length).head? with
      | some c =>
        if c = '=' || c = ':' then
          let rest := s.drop (w.length + 1)
          let sp := rest.takeWhile isPySpace
          let v := (rest.drop sp.length).takeWhile (fun c => !isPySpace c)
          if v.isEmpty then tryKV ws s
          else some (w ++ "=\x7bval\x7d".toList, w.length + 1 + sp.length + v.length)
        else tryKV ws s
      | none => tryKV ws s
    else tryKV ws s

/-- Key names of the key=value normalization on the exception path (line 217). -/
def kvWordsExc : List (List Char) :=
  ["preset".toList, "langCode".toList, "consumer".toList, "name".toList,
   "desc".toList, "image_file".toList, "prompt".toList]

/-- Key names of the key=value normalization on the leveled-log path (line 241). -/
def kvWordsSpring : List (List Char) :=
  ["consumer".toList, "name".toList, "desc".toList, "image_file".toList]

/-- `re.sub(r"(...)[=:]\s*\S+", r"\1={val}", s)` for a given word list. -/
def subKV (words : List (List Char)) (s : List Char) : List Char :=
  scanSub (tryKV words) s

/-- Matcher for `\{[^}]{20,}\}` (lines 219/242). -/
def tryBrace (s : List Char) : Option (List Char × Nat) :=
  match s with
  | c :: rest =>
    if c = '\x7b' then
      let inner := rest.takeWhile (fun d => d ≠ '\x7d')
      if 20 ≤ inner.length && (rest.drop inner.length).head? = some '\x7d' then
        some ("\x7b...\x7d".toList, inner.length + 2)
      else none
    else none
  | [] => none

/-- `re.sub(r"\{[^}]{20,}\}", "{...}", s)`. -/
def subBrace (s : List Char) : List Char := scanSub tryBrace s

/-- Matcher for `\[[^\]]{30,}\]` (lines 220/243). -/
def tryBracket (s : List Char) : Option (List Char × Nat) :=
  match s with
  | c :: rest =>
    if c = '[' then
      let inner := rest.takeWhile (fun d => d ≠ ']')
      if 30 ≤ inner.length && (rest.drop inner.length).head? = some ']' then
        some ("[...]".toList, inner.length + 2)
      else none
    else none
  | [] => none

/-- `re.sub(r"\[[^\]]{30,}\]", "[...]", s)`. -/
def subBracket (s : List Char) : List Char := scanSub tryBracket s

/-- Consume exactly `n` decimal digits, returning the remainder. -/
def expectDigits : Nat → List Char → Option (List Char)
  | 0, s => some s
  | _ + 1, [] => none
  | n + 1, c :: cs => if c.isDigit then expectDigits n cs else none

/-- Consume one expected character, returning the remainder. -/
def expectChar (c : Char) : List Char → Option (List Char)
  | [] => none
  | x :: xs => if x = c then some xs else none

/-- Matcher for the ISO-timestamp pattern
`\d{4}-\d{2}-\d{2}[T ]\d{2}:\d{2}:\d{2}[\d.]*` (line 250). -/
def tryTs (s : List Char) : Option (List Char × Nat) := do
  let s1 ← expectDigits 4 s
  let s2 ← expectChar '-' s1
  let s3 ← expectDigits 2 s2
  let s4 ← expectChar '-' s3
  let s5 ← expectDigits 2 s4
  let s6 ← match s5.head? with
    | some c => if c = 'T' || c = ' ' then some (s5.drop 1) else none
    | none => none
  let s7 ← expectDigits 2 s6
  let s8 ← expectChar ':' s7
  let s9 ← expectDigits 2 s8
  let s10 ← expectChar ':' s9
  let s11 ← expectDigits 2 s10
  let tail := s11.takeWhile (fun c => c.isDigit || c = '.')
  some ("\x7bts\x7d".toList, 19 + tail.length)

/-- `re.sub(r"\d{4}-\d{2}-\d{2}[T ]\d{2}:\d{2}:\d{2}[\d.]*", "{ts}", s)`. -/
def subTs (s : List Char) : List Char := scanSub tryTs s

/-!
## The three `re.search` shapes of `extract_error_key`

The searches are embedded position by position (leftmost match first),
with the backtracking order of the Python engine made explicit where it
matters: for `[\w$.]+(?:Exception|...)` the greedy identifier part is
tried longest first.
-/

/-- The exception-class suffix alternatives, in the order of the regex
alternation.  No alternative is a prefix or a suffix of another. -/
def excLits : List (List Char) :=
  ["Exception".toList, "Error".toList, "Failure".toList,
   "Fault".toList, "Throwable".toList]

/-- One split point of `([\w$.]+(?:Exception|...))\s*:\s*(.*)` at a
fixed start: the identifier part has consumed `k` characters; then a
literal alternative, `\s*`, a colon, `\s*`, and the rest of the line as
group 2. -/
def excTryAtK (s : List Char) (k : Nat) : Option (List Char × List Char) :=
  let afterTok := s.drop k
  match excLits.find? (fun lit => lit.isPrefixOf afterTok) with
  | none => none
  | some lit =>
    let p := afterTok.drop lit.length
    let sp := p.takeWhile isPySpace
    match p.drop sp.length with
    | ':' :: rest =>
      let sp2 := rest.takeWhile isPySpace
      some (s.take (k + lit.length), (rest.drop sp2.length).takeWhile (fun c => c ≠ '\n'))
    | _ => none

/-- Try the split points `k, k-1, ..., 1` (greedy `[\w$.]+`, longest
first). -/
def excTryK (s : List Char) : Nat → Option (List Char × List Char)
  | 0 => none
  | k + 1 =>
    match excTryAtK s (k + 1) with
    | some r => some r
    | none => excTryK s k

/-- Try the exception-with-message pattern at the current position.
`[\w$.]+` can only consume characters of the maximal `[\w$.]` run
starting here, and the literal alternative is itself made of word
characters, so the whole of group 1 lies inside that run. -/
def excTryHere (s : List Char) : Option (List Char × List Char) :=
  let run := s.takeWhile isTokChar
  if run.isEmpty then none else excTryK s run.length

/-- `re.search(r"([\w$.]+(?:Exception|Error|Failure|Fault|Throwable))\s*:\s*(.*)", line)`
(line 206), returning (group 1, group 2). -/
def excSearch : List Char → Option (List Char × List Char)
  | [] => none
  | c :: cs =>
    match excTryHere (c :: cs) with
    | some r => some r
    | none => excSearch cs

/-- Try `([\w$.]+(?:Exception|...))\s*$` at the current position: the
whole tail must be a `[\w$.]` run followed by whitespace only, the run
must end in a literal alternative, and the identifier part must be
nonempty. -/
def excOnlyHere (s : List Char) : Option (List Char) :=
  let run := s.takeWhile isTokChar
  if run.isEmpty then none
  else if (s.drop run.length).all isPySpace then
    match excLits.find? (fun lit => lit.isSuffixOf run && decide (lit.length < run.length)) with
    | some _ => some run
    | none => none
  else none

/-- `re.search(r"([\w$.]+(?:Exception|Error|Failure|Fault|Throwable))\s*$", line)`
(line 225), returning group 1. -/
def excOnlySearch : List Char → Option (List Char)
  | [] => none
  | c :: cs =>
    match excOnlyHere (c :: cs) with
    | some r => some r
    | none => excOnlySearch cs

/-- Try `\[(\w+)\s*\]\s+\[[\w$.]+\]\s+(.*)` at the current position;
each greedy run is followed by a character it cannot contain, so the
match is deterministic. -/
def springHere (s : List Char) : Option (List Char × List Char) :=
  match s with
  | '[' :: r1 =>
    let w := r1.takeWhile isWordChar
    if w.isEmpty then none else
    let r2 := r1.drop w.length
    let sp := r2.takeWhile isPySpace
    match r2.drop sp.length with
    | ']' :: r3 =>
      let sp1 := r3.takeWhile isPySpace
      if sp1.isEmpty then none else
      match r3.drop sp1.length with
      | '[' :: r4 =>
        let t := r4.takeWhile isTokChar
        if t.isEmpty then none else
        match r4.drop t.length with
        | ']' :: r5 =>
          let sp2 := r5.takeWhile isPySpace
          if sp2.isEmpty then none else
          some (w, (r5.drop sp2.length).takeWhile (fun c => c ≠ '\n'))
        | _ => none
      | _ => none
    | _ => none
  | _ => none

/-- `re.search(r"\[(\w+)\s*\]\s+\[[\w$.]+\]\s+(.*)", line)` (line 232),
returning (group 1 = level, group 2 = message). -/
def springSearch : List Char → Option (List Char × List Char)
  | [] => none
  | c :: cs =>
    match springHere (c :: cs) with
    | some r => some r
    | none => springSearch cs

/-!
## `extract_error_key`
-/

/-- `group(1).split(".")[-1]`: keep the segment after the last dot. -/
def lastComp (l : List Char) : List Char :=
  l.foldl (fun acc c => if c = '.' then [] else acc ++ [c]) []

/-- Normalization of the exception-path message half (lines 213-221). -/
def excMsgNormalize (m : List Char) : List Char :=
  (subBracket (subBrace (subKV kvWordsExc (subUrl (subNum (subHexId m)))))).take 80

/-- Normalization of the leveled-log-path message half (lines 239-244);
unlike the exception path, it has no `\d{5,}` scrub. -/
def springNormalize (m : List Char) : List Char :=
  (subBracket (subBrace (subKV kvWordsSpring (subUrl (subHexId m))))).take 80

/-- Fallback normalization (lines 248-251): truncate to 100 characters
first, then scrub hex ids, ISO timestamps and long numbers. -/
def fallbackKey (line : List Char) : List Char :=
  subNum (subTs (subHexId (line.take 100)))

/-- `extract_error_key` (lines 194-252) over the character list of the
message. -/
def extractL (message : List Char) : Option (List Char) :=
  if message.isEmpty then none
  else
    let line := pstrip message
    if "at ".toList.isPrefixOf line || "Caused by:".toList.isPrefixOf line ||
       "...".toList.isPrefixOf line then none
    else
      match excSearch line with
      | some (g1, g2) =>
        let cls := lastComp g1
        let m := excMsgNormalize (pstrip g2)
        some (if m.isEmpty then cls else cls ++ ": ".toList ++ m)
      | none =>
        match excOnlySearch line with
        | some g1 => some (lastComp g1)
        | none =>
          match springSearch line with
          | some (lvl, m0) =>
            if lvl = "ERROR".toList || lvl = "WARN".toList || lvl = "FATAL".toList then
              some ('[' :: lvl ++ "] ".toList ++ springNormalize (pstrip m0))
            else some (fallbackKey line)
          | none => some (fallbackKey line)

/-- `extract_error_key` on strings. -/
def extract_error_key (message : String) : Option String :=
  (extractL message.toList).map String.mk

/-!
## Grouping (`group_errors`, lines 257-286)

A Python dict is insertion-ordered with unique keys; the signature →
aggregate map is embedded as a list of aggregates in insertion order,
updated in place at the first (unique) occurrence of a key.  The
`log_groups` set is embedded as an insertion-ordered duplicate-free
list (set membership is what the rest of the script depends on).
-/

/-- One fetched log record: `@message`, `log_group`, `@timestamp`
(missing dict entries default to the empty string in the source). -/
structure LogRecord where
  message : String
  log_group : String
  timestamp : String
deriving DecidableEq, Repr

/-- Aggregate for one signature (the dict created on lines 268-274). -/
structure GroupAgg where
  key : String
  count : Nat
  log_groups : List String
  last_seen : String
  sample : String
deriving DecidableEq, Repr

/-- Lexicographic comparison of Python strings by code point, used for
`ts > groups[key]["last_seen"]` (line 280). -/
def strLtB (a b : String) : Bool :=
  go a.toList b.toList
where
  go : List Char → List Char → Bool
    | [], [] => false
    | [], _ :: _ => true
    | _ :: _, [] => false
    | c :: cs, d :: ds => if c = d then go cs ds else decide (c < d)

/-- Fresh aggregate for a newly seen key (lines 268-274). -/
def initAgg (k : String) : GroupAgg :=
  { key := k, count := 0, log_groups := [], last_seen := "", sample := "" }

/-- The per-record mutation of an aggregate (lines 276-284). -/
def touchAgg (r : LogRecord) (g : GroupAgg) : GroupAgg :=
  { g with
    count := g.count + 1
    log_groups :=
      if r.log_group ∈ g.log_groups then g.log_groups else g.log_groups ++ [r.log_group]
    last_seen := if strLtB g.last_seen r.timestamp then r.timestamp else g.last_seen
    sample := if g.sample = "" then r.message.take 200 else g.sample }

/-- Upsert: touch the aggregate at key `k`, creating it if absent. -/
def bump (r : LogRecord) (k : String) : List GroupAgg → List GroupAgg
  | [] => [touchAgg r (initAgg k)]
  | g :: gs => if g.key = k then touchAgg r g :: gs else g :: bump r k gs

/-- One iteration of the grouping loop (lines 261-284); records whose
key is `None` or the empty string are skipped (`if not key`). -/
def groupStep (gs : List GroupAgg) (r : LogRecord) : List GroupAgg :=
  match extract_error_key r.message with
  | none => gs
  | some k => if k = "" then gs else bump r k gs

/-- `group_errors` (lines 257-286). -/
def group_errors (errors : List LogRecord) : List GroupAgg :=
  errors.foldl groupStep []

/-!
## Classification (`classify_groups`, lines 291-324)

A noise pattern is embedded as its observable behaviour under
`re.search(pattern, key, re.IGNORECASE)`: a validity flag (compilation
succeeds) plus a match predicate.  `re` compiles a pattern when
`re.search` first reaches it, so an invalid pattern raises exactly when
it is reached; the embedding returns `Except` accordingly.  The 15
built-in noise patterns are regex literals without metacharacters, so
their search is a case-insensitive substring test.
-/

/-- A (possibly invalid) regular expression, by its behaviour. -/
structure RePattern where
  valid : Bool
  test : String → Bool

/-- Case-insensitive substring search of `pat` inside `s`
(`re.search(pat, s, re.IGNORECASE)` for a literal pattern). -/
def searchCI (pat s : String) : Bool :=
  go (s.toList.map Char.toLower) (pat.toList.map Char.toLower)
where
  go : List Char → List Char → Bool
    | s, p => p.isPrefixOf s ||
        match s with
        | [] => false
        | _ :: t => go t p

/-- `BUILTIN_NOISE_PATTERNS` (lines 55-74). -/
def builtinNoisePatterns : List String :=
  ["SocketTimeoutException", "ConnectTimeoutException", "HttpHostConnectException",
   "ConnectionRefused", "UnknownHostException", "NoRouteToHostException",
   "SSLHandshakeException", "SocketException", "ClientAbortException",
   "Broken pipe", "Connection reset by peer", "EOFException",
   "TooManyRequestsException", "ThrottlingException", "RateLimitException"]

/-- The built-in patterns as behaviours: they always compile. -/
def builtinRePatterns : List RePattern :=
  builtinNoisePatterns.map (fun p => { valid := true, test := fun k => searchCI p k })

/-- The inner pattern loop (lines 304-308): the first matching pattern
wins; reaching an invalid pattern raises `re.error`. -/
def firstMatchNoise : List RePattern → String → Except Unit Bool
  | [], _ => .ok false
  | p :: ps, k =>
    if p.valid then
      if p.test k then .ok true else firstMatchNoise ps k
    else .error ()

/-- The partition loop (lines 303-318), before sorting. -/
def classifyWith (pats : List RePattern) : List GroupAgg → Except Unit (List GroupAgg × List GroupAgg)
  | [] => .ok ([], [])
  | g :: gs =>
    match firstMatchNoise pats g.key with
    | .error e => .error e
    | .ok isNoise =>
      match classifyWith pats gs with
      | .error e => .error e
      | .ok (att, noi) => .ok (if isNoise then (att, g :: noi) else (g :: att, noi))

/-- Stable insert for a count-descending order: the inserted element
goes in front of the first element whose count does not exceed it. -/
def insAgg (a : GroupAgg) : List GroupAgg → List GroupAgg
  | [] => [a]
  | b :: bs => if b.count ≤ a.count then a :: b :: bs else b :: insAgg a bs

/-- The sort of lines 321-322, `sort(key=lambda x: x["count"],
reverse=True)`: Python's sort is stable and a stable sort is
extensionally unique, so it is embedded as a stable insertion sort by
count descending. -/
def sortByCountDesc (l : List GroupAgg) : List GroupAgg :=
  l.foldr insAgg []

/-- `classify_groups` (lines 291-324): builtin patterns first, then the
caller's `custom_ignore`; both result lists sorted by count
descending. -/
def classify_groups (groups : List GroupAgg) (customIgnore : List RePattern) :
    Except Unit (List GroupAgg × List GroupAgg) :=
  match classifyWith (builtinRePatterns ++ customIgnore) groups with
  | .error e => .error e
  | .ok (att, noi) => .ok (sortByCountDesc att, sortByCountDesc noi)

/-!
## Error history (`update_history`, lines 329-371)

Dates are integer day numbers (the source stores `YYYY-MM-DD` strings,
whose lexicographic comparison on line 366 agrees with day order).
`_today_str()` uses the KST calendar day while the expiry cutoff on
line 365 uses the local clock, so the embedding takes the two dates
separately (`todayK` for lines 353/359/361, `todayL` for line 365).
-/

/-- One history entry: `first_seen`, `last_seen`, `total_count`. -/
structure HistEntry where
  first_seen : Int
  last_seen : Int
  total_count : Nat
deriving DecidableEq, Repr

/-- The history dict: signature → entry, in insertion order. -/
abbrev History := List (String × HistEntry)

/-- Dict lookup. -/
def hlookup (h : History) (k : String) : Option HistEntry :=
  match h with
  | [] => none
  | (k₁, e) :: t => if k₁ = k then some e else hlookup t k

/-- Dict assignment: replace the value at an existing key in place,
append a new key at the end. -/
def dictInsert (h : History) (k : String) (e : HistEntry) : History :=
  match h with
  | [] => [(k, e)]
  | (k₁, e₁) :: t => if k₁ = k then (k, e) :: t else (k₁, e₁) :: dictInsert t k e

/-- One iteration of the update loop (lines 356-362) over one group
(`key`, `count`): a missing key is created with `total_count = 0` and
recorded as new; then `last_seen` is set to today and `total_count` is
increased by the group's count. -/
def updStep (todayK : Int) (acc : History × List String) (g : String × Nat) :
    History × List String :=
  match hlookup acc.1 g.1 with
  | none =>
    (dictInsert acc.1 g.1 { first_seen := todayK, last_seen := todayK, total_count := g.2 },
     acc.2 ++ [g.1])
  | some e =>
    (dictInsert acc.1 g.1 { e with last_seen := todayK, total_count := e.total_count + g.2 },
     acc.2)

/-- The expiry step (lines 364-368): delete every entry whose
`last_seen` is strictly before `today - 30`. -/
def expireHistory (todayL : Int) (h : History) : History :=
  h.filter (fun p => !decide (p.2.last_seen < todayL - 30))

/-- `update_history` (lines 350-371) on an already-loaded history.
`gs` is the concatenation `attention ++ noise` of the classified
groups, abstracted to (key, count) pairs; the function returns the
saved history and the set of new keys. -/
def update_history (h : History) (gs : List (String × Nat)) (todayK todayL : Int) :
    History × List String :=
  let r := gs.foldl (updStep todayK) (h, [])
  (expireHistory todayL r.1, r.2)

/-!
## Helper lemmas about the history store
-/

theorem hlookup_dictInsert_self (h : History) (k : String) (e : HistEntry) :
    hlookup (dictInsert h k e) k = some e := by
  induction h with
  | nil => simp [dictInsert, hlookup]
  | cons p t ih =>
    obtain ⟨k₁, e₁⟩ := p
    by_cases hk : k₁ = k
    · simp [dictInsert, hk, hlookup]
    · simp [dictInsert, hk, hlookup, ih]

theorem hlookup_dictInsert_ne (h : History) (k q : String) (e : HistEntry) (hq : q ≠ k) :
    hlookup (dictInsert h k e) q = hlookup h q := by
  induction h with
  | nil => simp [dictInsert, hlookup, Ne.symm hq]
  | cons p t ih =>
    obtain ⟨k₁, e₁⟩ := p
    by_cases hk : k₁ = k
    · subst hk
      simp [dictInsert, hlookup, Ne.symm hq]
    · simp [dictInsert, hk, hlookup, ih]

theorem foldUpd_newkeys_mono (tK : Int) (gs : List (String × Nat)) (h : History)
    (nk : List String) (k : String) (hk : k ∈ nk) :
    k ∈ (gs.foldl (updStep tK) (h, nk)).2 := by
  induction gs generalizing h nk with
  | nil => simpa
  | cons g t ih =>
    simp only [List.foldl_cons]
    cases hl : hlookup h g.1 with
    | none =>
      simp only [updStep, hl]
      exact ih _ _ (List.mem_append_left _ hk)
    | some e =>
      simp only [updStep, hl]
      exact ih _ _ hk

theorem foldUpd_newkeys_of_absent (tK : Int) (gs : List (String × Nat)) (h : History)
    (nk : List String) (k : String) (habs : hlookup h k = none)
    (hmem : k ∈ gs.map Prod.fst) :
    k ∈ (gs.foldl (updStep tK) (h, nk)).2 := by
  induction gs generalizing h nk with
  | nil => simp at hmem
  | cons g t ih =>
    simp only [List.foldl_cons]
    by_cases hg : g.1 = k
    · subst hg
      simp only [updStep, habs]
      exact foldUpd_newkeys_mono tK t _ _ g.1 (List.mem_append_right _ (List.mem_singleton.mpr rfl))
    · have hmem' : k ∈ t.map Prod.fst := by
        rcases List.mem_cons.mp hmem with h1 | h1
        · exact absurd h1.symm hg
        · exact h1
      cases hl : hlookup h g.1 with
      | none =>
        simp only [updStep, hl]
        exact ih _ _ (by rw [hlookup_dictInsert_ne _ _ _ _ (fun h => hg h.symm)]; exact habs) hmem'
      | some e =>
        simp only [updStep, hl]
        exact ih _ _ (by rw [hlookup_dictInsert_ne _ _ _ _ (fun h => hg h.symm)]; exact habs) hmem'

theorem foldUpd_not_new_of_present (tK : Int) (gs : List (String × Nat)) (h : History)
    (nk : List String) (k : String) (hp : (hlookup h k).isSome) (hnk : k ∉ nk) :
    k ∉ (gs.foldl (updStep tK) (h, nk)).2 := by
  induction gs generalizing h nk with
  | nil => simpa
  | cons g t ih =>
    simp only [List.foldl_cons]
    by_cases hg : g.1 = k
    · subst hg
      cases hl : hlookup h g.1 with
      | none => rw [hl] at hp; simp at hp
      | some e =>
        simp only [updStep, hl]
        exact ih _ _ (by rw [hlookup_dictInsert_self]; rfl) hnk
    · cases hl : hlookup h g.1 with
      | none =>
        simp only [updStep, hl]
        refine ih _ _ ?_ ?_
        · rwa [hlookup_dictInsert_ne _ _ _ _ (fun h => hg h.symm)]
        · intro hk
          rcases List.mem_append.mp hk with h1 | h1
          · exact hnk h1
          · exact hg (List.mem_singleton.mp h1).symm
      | some e =>
        simp only [updStep, hl]
        refine ih _ _ ?_ hnk
        rwa [hlookup_dictInsert_ne _ _ _ _ (fun h => hg h.symm)]

theorem foldUpd_lastseen (tK : Int) (gs : List (String × Nat)) (h : History)
    (nk : List String) (k : String)
    (hst : k ∈ gs.map Prod.fst ∨ ∃ e, hlookup h k = some e ∧ e.last_seen = tK) :
    ∃ e, hlookup (gs.foldl (updStep tK) (h, nk)).1 k = some e ∧ e.last_seen = tK := by
  induction gs generalizing h nk with
  | nil =>
    rcases hst with h1 | h1
    · simp at h1
    · simpa using h1
  | cons g t ih =>
    simp only [List.foldl_cons]
    by_cases hg : g.1 = k
    · subst hg
      cases hl : hlookup h g.1 with
      | none =>
        simp only [updStep, hl]
        exact ih _ _ (Or.inr ⟨_, hlookup_dictInsert_self _ _ _, rfl⟩)
      | some e =>
        simp only [updStep, hl]
        exact ih _ _ (Or.inr ⟨_, hlookup_dictInsert_self _ _ _, rfl⟩)
    · have hst' : k ∈ t.map Prod.fst ∨ ∃ e, hlookup h k = some e ∧ e.last_seen = tK := by
        rcases hst with h1 | h1
        · rcases List.mem_cons.mp h1 with h2 | h2
          · exact absurd h2.symm hg
          · exact Or.inl h2
        · exact Or.inr h1
      cases hl : hlookup h g.1 with
      | none =>
        simp only [updStep, hl]
        refine ih _ _ ?_
        rcases hst' with h1 | h1
        · exact Or.inl h1
        · exact Or.inr (by rwa [hlookup_dictInsert_ne _ _ _ _ (fun h => hg h.symm)])
      | some e =>
        simp only [updStep, hl]
        refine ih _ _ ?_
        rcases hst' with h1 | h1
        · exact Or.inl h1
        · exact Or.inr (by rwa [hlookup_dictInsert_ne _ _ _ _ (fun h => hg h.symm)])

theorem foldUpd_total_mono (tK : Int) (gs : List (String × Nat)) (h : History)
    (nk : List String) (k : String) (e : HistEntry) (hl : hlookup h k = some e) :
    ∃ e₁, hlookup (gs.foldl (updStep tK) (h, nk)).1 k = some e₁ ∧
      e.total_count ≤ e₁.total_count := by
  induction gs generalizing h nk e with
  | nil => exact ⟨e, by simpa using hl, le_refl _⟩
  | cons g t ih =>
    simp only [List.foldl_cons]
    by_cases hg : g.1 = k
    · subst hg
      simp only [updStep, hl]
      obtain ⟨e₁, he₁, hle⟩ := ih _ _ _ (hlookup_dictInsert_self _ _ _)
      exact ⟨e₁, he₁, le_trans (Nat.le_add_right _ _) hle⟩
    · cases hl₂ : hlookup h g.1 with
      | none =>
        simp only [updStep, hl₂]
        exact ih _ _ _ (by rwa [hlookup_dictInsert_ne _ _ _ _ (fun h => hg h.symm)])
      | some e₂ =>
        simp only [updStep, hl₂]
        exact ih _ _ _ (by rwa [hlookup_dictInsert_ne _ _ _ _ (fun h => hg h.symm)])

theorem mem_keys_dictInsert (h : History) (k q : String) (e : HistEntry) :
    q ∈ (dictInsert h k e).map Prod.fst ↔ q ∈ h.map Prod.fst ∨ q = k := by
  induction h with
  | nil => simp [dictInsert]
  | cons p t ih =>
    obtain ⟨k₁, e₁⟩ := p
    by_cases hk : k₁ = k
    · subst hk
      have hins : dictInsert ((k₁, e₁) :: t) k₁ e = (k₁, e) :: t := by
        simp [dictInsert]
      rw [hins]
      simp only [List.map_cons, List.mem_cons]
      tauto
    · simp only [dictInsert, if_neg hk, List.map_cons, List.mem_cons, ih]
      tauto

theorem keys_nodup_dictInsert (h : History) (k : String) (e : HistEntry)
    (hnd : (h.map Prod.fst).Nodup) : ((dictInsert h k e).map Prod.fst).Nodup := by
  induction h with
  | nil => simp [dictInsert]
  | cons p t ih =>
    obtain ⟨k₁, e₁⟩ := p
    simp only [List.map_cons, List.nodup_cons] at hnd
    by_cases hk : k₁ = k
    · subst hk
      simpa [dictInsert, List.nodup_cons] using hnd
    · simp only [dictInsert, if_neg hk, List.map_cons, List.nodup_cons]
      refine ⟨?_, ih hnd.2⟩
      rw [mem_keys_dictInsert]
      rintro (h1 | h1)
      · exact hnd.1 h1
      · exact hk h1

theorem foldUpd_keys_nodup (tK : Int) (gs : List (String × Nat)) (h : History)
    (nk : List String) (hnd : (h.map Prod.fst).Nodup) :
    (((gs.foldl (updStep tK) (h, nk)).1).map Prod.fst).Nodup := by
  induction gs generalizing h nk with
  | nil => simpa
  | cons g t ih =>
    simp only [List.foldl_cons]
    cases hl : hlookup h g.1 with
    | none =>
      simp only [updStep, hl]
      exact ih _ _ (keys_nodup_dictInsert _ _ _ hnd)
    | some e =>
      simp only [updStep, hl]
      exact ih _ _ (keys_nodup_dictInsert _ _ _ hnd)

theorem hlookup_none_of_not_mem_keys (h : History) (k : String)
    (hk : k ∉ h.map Prod.fst) : hlookup h k = none := by
  induction h with
  | nil => rfl
  | cons p t ih =>
    obtain ⟨k₁, e₁⟩ := p
    simp only [List.map_cons, List.mem_cons] at hk
    push_neg at hk
    rw [hlookup, if_neg (Ne.symm hk.1)]
    exact ih hk.2

theorem hlookup_filter (h : History) (k : String) (e : HistEntry)
    (q : String × HistEntry → Bool) (hl : hlookup h k = some e) (hq : q (k, e) = true) :
    hlookup (h.filter q) k = some e := by
  induction h with
  | nil => simp [hlookup] at hl
  | cons p t ih =>
    obtain ⟨k₁, e₁⟩ := p
    by_cases hk : k₁ = k
    · subst hk
      rw [hlookup, if_pos rfl] at hl
      obtain rfl : e₁ = e := by simpa using hl
      simp [List.filter_cons, hq, hlookup]
    · rw [hlookup, if_neg hk] at hl
      rw [List.filter_cons]
      by_cases hq₁ : q (k₁, e₁) = true
      · rw [if_pos hq₁, hlookup, if_neg hk]
        exact ih hl
      · rw [if_neg hq₁]
        exact ih hl

theorem hlookup_of_hlookup_filter (h : History) (k : String) (e : HistEntry)
    (q : String × HistEntry → Bool) (hnd : (h.map Prod.fst).Nodup)
    (hl : hlookup (h.filter q) k = some e) : hlookup h k = some e := by
  induction h with
  | nil => simp [hlookup] at hl
  | cons p t ih =>
    obtain ⟨k₁, e₁⟩ := p
    simp only [List.map_cons, List.nodup_cons] at hnd
    rw [List.filter_cons] at hl
    by_cases hk : k₁ = k
    · subst hk
      by_cases hq₁ : q (k₁, e₁) = true
      · rw [if_pos hq₁, hlookup, if_pos rfl] at hl
        rw [hlookup, if_pos rfl]
        exact hl
      · rw [if_neg hq₁] at hl
        have hnone : hlookup (t.filter q) k₁ = none := by
          apply hlookup_none_of_not_mem_keys
          intro hm
          exact hnd.1 (List.Sublist.mem hm (List.Sublist.map Prod.fst (t.filter_sublist (p := q))))
        rw [hnone] at hl
        exact absurd hl (by simp)
    · by_cases hq₁ : q (k₁, e₁) = true
      · rw [if_pos hq₁, hlookup, if_neg hk] at hl
        rw [hlookup, if_neg hk]
        exact ih hnd.2 hl
      · rw [if_neg hq₁] at hl
        rw [hlookup, if_neg hk]
        exact ih hnd.2 hl

/-!
## Claims about the history store
-/

/-- C1: a signature absent from the history before `update_history` and
present in the classified groups is added to the history and is a
member of the returned new-signature set (its entry survives the same
run's expiry step whenever the run's two clock dates are within the
30-day retention window); and any signature whose entry is present in a
loaded history — in particular one written by the previous run and not
expired in between — is never a member of the new-signature set
returned by the following `update_history`. -/
theorem update_history_new_signature_once
    (hist : History) (gs₁ gs₂ : List (String × Nat)) (tK₁ tL₁ tK₂ tL₂ : Int) (k : String)
    (habs : hlookup hist k = none) (hmem : k ∈ gs₁.map Prod.fst) :
    k ∈ (update_history hist gs₁ tK₁ tL₁).2
    ∧ (tL₁ - 30 ≤ tK₁ → (hlookup (update_history hist gs₁ tK₁ tL₁).1 k).isSome)
    ∧ ∀ h₂ : History, (hlookup h₂ k).isSome → k ∉ (update_history h₂ gs₂ tK₂ tL₂).2 := by
  refine ⟨?_, ?_, ?_⟩
  · exact foldUpd_newkeys_of_absent tK₁ gs₁ hist [] k habs hmem
  · intro hskew
    obtain ⟨e, he, hls⟩ := foldUpd_lastseen tK₁ gs₁ hist [] k (Or.inl hmem)
    have hq : (fun p : String × HistEntry => !decide (p.2.last_seen < tL₁ - 30)) (k, e) = true := by
      simp only [Bool.not_eq_true', decide_eq_false_iff_not]
      omega
    have h2 : hlookup (expireHistory tL₁ (gs₁.foldl (updStep tK₁) (hist, [])).1) k = some e := by
      unfold expireHistory
      exact hlookup_filter _ _ _ _ he hq
    simp only [update_history, h2, Option.isSome_some]
  · intro h₂ hp
    exact foldUpd_not_new_of_present tK₂ gs₂ h₂ [] k hp (by simp)

/-- Witness for C1 at a concrete input. -/
theorem update_history_new_signature_once_witness :
    "E" ∈ (update_history [] [("E", 2)] 100 100).2
    ∧ (hlookup (update_history [] [("E", 2)] 100 100).1 "E").isSome
    ∧ "E" ∉ (update_history (update_history [] [("E", 2)] 100 100).1 [("E", 1)] 101 101).2 := by
  have h := update_history_new_signature_once [] [("E", 2)] [("E", 1)] 100 100 101 101 "E"
    rfl (by decide)
  exact ⟨h.1, h.2.1 (by decide), h.2.2 _ (h.2.1 (by decide))⟩

/-- C2: with the hard-coded 30-day retention window, expiry is boundary
inclusive: an entry last seen 31 days before the run date is removed by
the expiry step, and an entry last seen exactly 30 days before is
retained. -/
theorem expireHistory_retention_boundary
    (h : History) (today : Int) (k : String) (e : HistEntry) (hmem : (k, e) ∈ h) :
    (e.last_seen = today - 31 → (k, e) ∉ expireHistory today h)
    ∧ (e.last_seen = today - 30 → (k, e) ∈ expireHistory today h) := by
  constructor
  · intro hls hmem2
    have hpred := List.of_mem_filter hmem2
    simp only [Bool.not_eq_true', decide_eq_false_iff_not] at hpred
    omega
  · intro hls
    refine List.mem_filter.mpr ⟨hmem, ?_⟩
    simp only [Bool.not_eq_true', decide_eq_false_iff_not]
    omega

/-- Witness for C2 at a concrete input. -/
theorem expireHistory_retention_boundary_witness :
    ("a", (⟨0, 69, 1⟩ : HistEntry)) ∉ expireHistory 100 [("a", ⟨0, 69, 1⟩)]
    ∧ ("b", (⟨0, 70, 1⟩ : HistEntry)) ∈ expireHistory 100 [("b", ⟨0, 70, 1⟩)] :=
  ⟨(expireHistory_retention_boundary _ 100 _ _ (by simp)).1 (by norm_num),
   (expireHistory_retention_boundary _ 100 _ _ (by simp)).2 (by norm_num)⟩

/-- C6: across one full `update_history` run, the `total_count` of any
signature whose entry exists before and still exists after (i.e. it was
not deleted by expiry) never decreases. -/
theorem update_history_total_count_monotone
    (hist : History) (gs : List (String × Nat)) (tK tL : Int) (k : String)
    (e e₁ : HistEntry)
    (hnd : (hist.map Prod.fst).Nodup)
    (hbefore : hlookup hist k = some e)
    (hafter : hlookup (update_history hist gs tK tL).1 k = some e₁) :
    e.total_count ≤ e₁.total_count := by
  obtain ⟨e₂, he₂, hle⟩ := foldUpd_total_mono tK gs hist [] k e hbefore
  have hafter2 : hlookup (((gs.foldl (updStep tK) (hist, [])).1).filter
      (fun p => !decide (p.2.last_seen < tL - 30))) k = some e₁ := hafter
  have hfold := hlookup_of_hlookup_filter _ _ _ _ (foldUpd_keys_nodup tK gs hist [] hnd) hafter2
  rw [he₂] at hfold
  obtain rfl : e₂ = e₁ := by simpa using hfold
  exact hle

/-- Witness for C6 at a concrete input. -/
theorem update_history_total_count_monotone_witness :
    (⟨0, 95, 3⟩ : HistEntry).total_count ≤ (⟨0, 100, 5⟩ : HistEntry).total_count :=
  update_history_total_count_monotone [("E", ⟨0, 95, 3⟩)] [("E", 2)] 100 100 "E" _ _
    (by simp) (by decide) (by decide)

/-- C8: a signature appearing among the classified groups of the
current run is never evicted by the same run's expiry step: after
`update_history` it still has a history entry (given that the run's two
clock dates are within the 30-day retention window of each other). -/
theorem update_history_seen_not_evicted
    (hist : History) (gs : List (String × Nat)) (tK tL : Int) (k : String)
    (hskew : tL - 30 ≤ tK) (hmem : k ∈ gs.map Prod.fst) :
    (hlookup (update_history hist gs tK tL).1 k).isSome := by
  obtain ⟨e, he, hls⟩ := foldUpd_lastseen tK gs hist [] k (Or.inl hmem)
  have hq : (fun p : String × HistEntry => !decide (p.2.last_seen < tL - 30)) (k, e) = true := by
    simp only [Bool.not_eq_true', decide_eq_false_iff_not]
    omega
  have h2 : hlookup (expireHistory tL (gs.foldl (updStep tK) (hist, [])).1) k = some e := by
    unfold expireHistory
    exact hlookup_filter _ _ _ _ he hq
  simp only [update_history, h2, Option.isSome_some]

/-- Witness for C8 at a concrete input. -/
theorem update_history_seen_not_evicted_witness :
    (hlookup (update_history [("old", ⟨0, 50, 7⟩)] [("E", 2)] 100 100).1 "E").isSome :=
  update_history_seen_not_evicted [("old", ⟨0, 50, 7⟩)] [("E", 2)] 100 100 "E"
    (by norm_num) (by decide)

/-!
## Concrete claims about extraction and grouping
-/

/-- C7: the extractor maps both sample messages, which differ only in
their lowercase hex ids, to the signature
"NullPointerException: user \x7bid\x7d not found", and the grouper
folds the two-record batch into a single aggregate with count 2. -/
theorem extract_group_hex_id_merge :
    extract_error_key "NullPointerException: user 9a8f7e6d1c2b not found"
      = some "NullPointerException: user \x7bid\x7d not found"
    ∧ extract_error_key "NullPointerException: user 00112233aabb not found"
      = some "NullPointerException: user \x7bid\x7d not found"
    ∧ group_errors
        [⟨"NullPointerException: user 9a8f7e6d1c2b not found", "app", "2025-01-01T00:00:01"⟩,
         ⟨"NullPointerException: user 00112233aabb not found", "app", "2025-01-01T00:00:02"⟩]
      = [⟨"NullPointerException: user \x7bid\x7d not found", 2, ["app"], "2025-01-01T00:00:02",
          "NullPointerException: user 9a8f7e6d1c2b not found"⟩] := by
  refine ⟨by decide, by decide, by decide⟩

/-- C5 counterexample: in the one-record batch whose message is a
single space, the extractor returns the non-null signature "" — so one
record of the batch has a non-null signature — but the grouper's
`if not key` test also skips the empty string, so the aggregate counts
sum to 0, not 1. -/
theorem group_errors_count_nonnull_cex :
    extract_error_key " " = some ""
    ∧ List.countP (fun r => (extract_error_key r.message).isSome)
        [({ message := " ", log_group := "", timestamp := "" } : LogRecord)] = 1
    ∧ ((group_errors [{ message := " ", log_group := "", timestamp := "" }]).map
        (fun g => g.count)).sum = 0
    ∧ ((group_errors [{ message := " ", log_group := "", timestamp := "" }]).map
          (fun g => g.count)).sum
        ≠ List.countP (fun r => (extract_error_key r.message).isSome)
            [({ message := " ", log_group := "", timestamp := "" } : LogRecord)] := by
  refine ⟨by decide, by decide, by decide, by decide⟩

/-- C9 counterexample: the message "at [INFO] [a.b] hello" matches the
leveled-log shape (the search is not anchored) with the non-error level
INFO, yet the extractor returns null for it: the stack-trace test on
the prefix "at " fires first. -/
theorem extract_leveled_nonerror_null_cex :
    springSearch (pstrip "at [INFO] [a.b] hello".toList)
      = some ("INFO".toList, "hello".toList)
    ∧ ("INFO".toList ≠ "ERROR".toList ∧ "INFO".toList ≠ "WARN".toList
        ∧ "INFO".toList ≠ "FATAL".toList)
    ∧ extract_error_key "at [INFO] [a.b] hello" = none := by
  refine ⟨by decide, by decide, by decide⟩

/-- C10 counterexample: the uppercase hex token is indeed never
replaced by "\x7bid\x7d", but it is not left verbatim in the signature
either: the key=value normalization swallows it, so these two messages,
identical except for their uppercase ids, produce the same signature
instead of distinct ones. -/
theorem extract_uppercase_id_not_verbatim_cex :
    extract_error_key "FooException: name=9A8F7E6D1C2B"
      = some "FooException: name=\x7bval\x7d"
    ∧ extract_error_key "FooException: name=AABBCC001122"
      = some "FooException: name=\x7bval\x7d"
    ∧ ("FooException: name=9A8F7E6D1C2B" : String) ≠ "FooException: name=AABBCC001122" := by
  refine ⟨by decide, by decide, by decide⟩

/-!
## Claims about classification
-/

theorem mem_insAgg (a y : GroupAgg) (l : List GroupAgg) :
    y ∈ insAgg a l ↔ y = a ∨ y ∈ l := by
  induction l with
  | nil => simp [insAgg]
  | cons b bs ih =>
    by_cases hc : b.count ≤ a.count
    · simp only [insAgg, if_pos hc, List.mem_cons]
    · simp only [insAgg, if_neg hc, List.mem_cons, ih]
      tauto

theorem pairwise_insAgg (a : GroupAgg) (l : List GroupAgg)
    (h : l.Pairwise (fun x y => y.count ≤ x.count)) :
    (insAgg a l).Pairwise (fun x y => y.count ≤ x.count) := by
  induction l with
  | nil => simp [insAgg]
  | cons b bs ih =>
    simp only [insAgg]
    by_cases hc : b.count ≤ a.count
    · rw [if_pos hc]
      refine List.pairwise_cons.mpr ⟨?_, h⟩
      intro y hy
      rcases List.mem_cons.mp hy with rfl | hy2
      · exact hc
      · exact le_trans ((List.pairwise_cons.mp h).1 y hy2) hc
    · rw [if_neg hc]
      refine List.pairwise_cons.mpr ⟨?_, ih (List.pairwise_cons.mp h).2⟩
      intro y hy
      rcases (mem_insAgg a y bs).mp hy with rfl | hy2
      · omega
      · exact (List.pairwise_cons.mp h).1 y hy2

theorem pairwise_sortByCountDesc (l : List GroupAgg) :
    (sortByCountDesc l).Pairwise (fun x y => y.count ≤ x.count) := by
  induction l with
  | nil => simp [sortByCountDesc]
  | cons a t ih =>
    simp only [sortByCountDesc, List.foldr_cons]
    exact pairwise_insAgg _ _ ih

/-- C3 counterexample: two equal-count attention entries inserted in the
order "b", "a" come out of `classify_groups` in the same order — the
stable sort orders by count only, not by signature on ties — so the
returned attention list violates the claimed count-descending,
signature-ascending order. -/
theorem classify_groups_tiebreak_cex :
    classify_groups [⟨"b", 1, [], "", ""⟩, ⟨"a", 1, [], "", ""⟩] []
      = .ok ([⟨"b", 1, [], "", ""⟩, ⟨"a", 1, [], "", ""⟩], [])
    ∧ ¬ List.Pairwise (fun x y : GroupAgg =>
          y.count < x.count ∨ (x.count = y.count ∧ strLtB y.key x.key = false))
        [⟨"b", 1, [], "", ""⟩, ⟨"a", 1, [], "", ""⟩] := by
  refine ⟨by rfl, ?_⟩
  intro hp
  have h := (List.pairwise_cons.mp hp).1 ⟨"a", 1, [], "", ""⟩ (by simp)
  rcases h with h | h
  · exact absurd h (by decide)
  · exact absurd h.2 (by decide)

/-- C3 amended: both lists returned by `classify_groups` are sorted by
count descending, but equal-count entries keep the insertion order of
the input groups map — they are not ordered by signature. -/
theorem classify_groups_sorted_by_count
    (groups : List GroupAgg) (custom : List RePattern) (att noi : List GroupAgg)
    (h : classify_groups groups custom = .ok (att, noi)) :
    att.Pairwise (fun x y => y.count ≤ x.count)
    ∧ noi.Pairwise (fun x y => y.count ≤ x.count) := by
  unfold classify_groups at h
  cases hc : classifyWith (builtinRePatterns ++ custom) groups with
  | error e => rw [hc] at h; cases h
  | ok pr =>
    obtain ⟨a0, n0⟩ := pr
    rw [hc] at h
    simp only [Except.ok.injEq, Prod.mk.injEq] at h
    obtain ⟨rfl, rfl⟩ := h
    exact ⟨pairwise_sortByCountDesc _, pairwise_sortByCountDesc _⟩

/-- Witness for the amended C3 at a concrete input. -/
theorem classify_groups_sorted_by_count_witness :
    List.Pairwise (fun x y : GroupAgg => y.count ≤ x.count)
      [⟨"b", 2, [], "", ""⟩, ⟨"a", 1, [], "", ""⟩]
    ∧ List.Pairwise (fun x y : GroupAgg => y.count ≤ x.count) ([] : List GroupAgg) :=
  classify_groups_sorted_by_count [⟨"a", 1, [], "", ""⟩, ⟨"b", 2, [], "", ""⟩] [] _ _ (by rfl)

/-- C4 counterexample: with an invalid custom pattern configured, the
pipeline still extracts, groups and classifies the whole batch without
any error: the one signature matches a built-in noise pattern, so the
invalid pattern is never reached and no pattern error is raised at
all — there is no construction-time compilation. -/
theorem classify_groups_invalid_pattern_unraised_cex :
    (RePattern.valid ⟨false, fun _ => false⟩ = false)
    ∧ classify_groups (group_errors [⟨"SocketTimeoutException: read timed out", "app", "t1"⟩])
        [⟨false, fun _ => false⟩]
      = .ok ([], [⟨"SocketTimeoutException: read timed out", 1, ["app"], "t1",
                   "SocketTimeoutException: read timed out"⟩]) := by
  exact ⟨rfl, by rfl⟩

theorem firstMatchNoise_error_at (pre post : List RePattern) (p : RePattern) (key : String)
    (hpv : p.valid = false) (hpre : ∀ q ∈ pre, q.valid = true ∧ q.test key = false) :
    firstMatchNoise (pre ++ p :: post) key = .error () := by
  induction pre with
  | nil => simp [firstMatchNoise, hpv]
  | cons q qs ih =>
    have hq := hpre q (List.mem_cons_self _ _)
    simp only [List.cons_append, firstMatchNoise, hq.1, hq.2, if_true, if_false]
    exact ih (fun r hr => hpre r (List.mem_cons_of_mem _ hr))

theorem classifyWith_error_of_mem (pats : List RePattern) (groups : List GroupAgg)
    (g : GroupAgg) (hg : g ∈ groups) (herr : firstMatchNoise pats g.key = .error ()) :
    classifyWith pats groups = .error () := by
  induction groups with
  | nil => simp at hg
  | cons a t ih =>
    rcases List.mem_cons.mp hg with rfl | hmem
    · simp [classifyWith, herr]
    · cases hfm : firstMatchNoise pats a.key with
      | error e =>
        obtain ⟨⟩ := e
        simp [classifyWith, hfm]
      | ok b =>
        simp only [classifyWith, hfm]
        rw [ih hmem]

/-- C4 amended: an invalid custom pattern raises not at construction
time but lazily, inside classification, when `re.search` first reaches
it: whenever some group's signature is matched by no pattern placed
before the invalid one, `classify_groups` fails — while extraction and
grouping of the batch have already completed, and a batch whose every
signature matches an earlier pattern raises no error at all. -/
theorem classify_groups_invalid_pattern_lazy
    (groups : List GroupAgg) (custom : List RePattern) (pre post : List RePattern)
    (p : RePattern) (g : GroupAgg)
    (hsplit : builtinRePatterns ++ custom = pre ++ p :: post)
    (hpv : p.valid = false)
    (hpre : ∀ q ∈ pre, q.valid = true ∧ q.test g.key = false)
    (hg : g ∈ groups) :
    classify_groups groups custom = .error () := by
  have herr : firstMatchNoise (builtinRePatterns ++ custom) g.key = .error () := by
    rw [hsplit]
    exact firstMatchNoise_error_at pre post p g.key hpv hpre
  have h := classifyWith_error_of_mem _ groups g hg herr
  unfold classify_groups
  rw [h]

/-- Witness for the amended C4 at a concrete input. -/
theorem classify_groups_invalid_pattern_lazy_witness :
    classify_groups [⟨"zzz", 1, [], "", ""⟩] [⟨false, fun _ => false⟩] = .error () :=
  classify_groups_invalid_pattern_lazy [⟨"zzz", 1, [], "", ""⟩] [⟨false, fun _ => false⟩]
    builtinRePatterns [] ⟨false, fun _ => false⟩ ⟨"zzz", 1, [], "", ""⟩
    rfl rfl (by decide) (by simp)

/-!
## Claims about grouping counts
-/

theorem sum_counts_bump (r : LogRecord) (k : String) (gs : List GroupAgg) :
    ((bump r k gs).map (fun g => g.count)).sum = ((gs.map (fun g => g.count)).sum) + 1 := by
  induction gs with
  | nil => simp [bump, touchAgg, initAgg]
  | cons g t ih =>
    by_cases hk : g.key = k
    · simp only [bump, if_pos hk, List.map_cons, List.sum_cons, touchAgg]
      omega
    · simp only [bump, if_neg hk, List.map_cons, List.sum_cons, ih]
      omega

/-- C5 amended: the aggregate counts of `group_errors` sum to the
number of records whose message yields a signature that is neither null
nor the empty string (the grouper's `if not key` skips both). -/
theorem group_errors_count_truthy (errors : List LogRecord) :
    ((group_errors errors).map (fun g => g.count)).sum
      = errors.countP (fun r =>
          match extract_error_key r.message with
          | some k => !(k == "")
          | none => false) := by
  suffices h : ∀ gs : List GroupAgg,
      ((errors.foldl groupStep gs).map (fun g => g.count)).sum
        = ((gs.map (fun g => g.count)).sum)
          + errors.countP (fun r =>
              match extract_error_key r.message with
              | some k => !(k == "")
              | none => false) by
    simpa [group_errors] using h []
  induction errors with
  | nil => simp
  | cons r t ih =>
    intro gs
    simp only [List.foldl_cons, List.countP_cons]
    cases hext : extract_error_key r.message with
    | none =>
      simp [groupStep, hext, ih gs]
    | some k =>
      by_cases hk : k = ""
      · subst hk
        simp [groupStep, hext, ih gs]
      · simp only [groupStep, hext, if_neg hk]
        rw [ih (bump r k gs)]
        rw [sum_counts_bump]
        simp [hk]
        omega

/-!
## Claims about the extractor's rule order and hex-id scrub
-/

/-- C9 amended: a nonempty message whose stripped line is not a
stack-trace continuation line, matches neither exception shape, and
matches the leveled-log shape with a level other than ERROR, WARN or
FATAL, does not yield null: the extractor falls through to the fallback
rule, returning the first 100 characters of the line with hex-id,
ISO-timestamp and long-number scrubbing.  (Without those extra
conditions the claim fails: a stack-trace line yields null and an
exception match takes precedence, as the counterexample shows.) -/
theorem extract_leveled_nonerror_fallback
    (message lvl m0 : List Char)
    (h0 : message.isEmpty = false)
    (h1 : ("at ".toList.isPrefixOf (pstrip message)
           || "Caused by:".toList.isPrefixOf (pstrip message)
           || "...".toList.isPrefixOf (pstrip message)) = false)
    (h2 : excSearch (pstrip message) = none)
    (h3 : excOnlySearch (pstrip message) = none)
    (h4 : springSearch (pstrip message) = some (lvl, m0))
    (h5 : lvl ≠ "ERROR".toList) (h6 : lvl ≠ "WARN".toList) (h7 : lvl ≠ "FATAL".toList) :
    extractL message = some (fallbackKey (pstrip message))
    ∧ (extractL message).isSome := by
  have hmain : extractL message = some (fallbackKey (pstrip message)) := by
    simp only [extractL, h0, Bool.false_eq_true, if_false, h1, h2, h3, h4]
    have hcond : ¬ ((lvl = "ERROR".toList ∨ lvl = "WARN".toList) ∨ lvl = "FATAL".toList) := by
      rintro ((h | h) | h)
      exacts [h5 h, h6 h, h7 h]
    simp only [Bool.or_eq_true, decide_eq_true_eq]
    rw [if_neg hcond]
  exact ⟨hmain, by rw [hmain]; rfl⟩

/-- Witness for the amended C9 at a concrete input. -/
theorem extract_leveled_nonerror_fallback_witness :
    extractL "[INFO] [a.b] hello".toList
      = some (fallbackKey (pstrip "[INFO] [a.b] hello".toList))
    ∧ (extractL "[INFO] [a.b] hello".toList).isSome :=
  extract_leveled_nonerror_fallback "[INFO] [a.b] hello".toList "INFO".toList "hello".toList
    (by decide) (by decide) (by decide) (by decide) (by decide)
    (by decide) (by decide) (by decide)

theorem subTokensAux_run (f : List Char → List Char) (cs : List Char) :
    ∀ run : List Char, run.isEmpty = false →
      subTokensAux f run cs
        = f (run.reverse ++ cs.takeWhile isWordChar)
            ++ subTokensAux f [] (cs.dropWhile isWordChar) := by
  induction cs with
  | nil =>
    intro run hrun
    simp [subTokensAux, hrun]
  | cons c cs ih =>
    intro run hrun
    by_cases hw : isWordChar c
    · simp only [subTokensAux, hw, if_true, List.takeWhile_cons, List.dropWhile_cons]
      rw [ih (c :: run) rfl]
      simp
    · simp [subTokensAux, hw, hrun, List.takeWhile_cons, List.dropWhile_cons]

theorem subTokens_cons (f : List Char → List Char) (c : Char) (cs : List Char) :
    subTokens f (c :: cs)
      = if isWordChar c then
          f (c :: cs.takeWhile isWordChar) ++ subTokens f (cs.dropWhile isWordChar)
        else c :: subTokens f cs := by
  by_cases hw : isWordChar c
  · rw [if_pos hw]
    show subTokensAux f [] (c :: cs) = _
    simp only [subTokensAux, hw, if_true]
    rw [subTokensAux_run f cs [c] rfl]
    rfl
  · rw [if_neg hw]
    show subTokensAux f [] (c :: cs) = _
    simp [subTokensAux, hw, subTokens]

theorem subTokensAux_cons_pos (f : List Char → List Char) (run : List Char) (a : Char)
    (L : List Char) (hw : isWordChar a = true) :
    subTokensAux f run (a :: L) = subTokensAux f (a :: run) L := by
  simp only [subTokensAux, hw, if_true]

theorem subTokensAux_cons_neg (f : List Char → List Char) (run : List Char) (a : Char)
    (L : List Char) (hw : isWordChar a = false) :
    subTokensAux f run (a :: L)
      = (if run.isEmpty then [] else f run.reverse) ++ (a :: subTokensAux f [] L) := by
  simp only [subTokensAux, hw, Bool.false_eq_true, if_false]

theorem subTokensAux_append (f : List Char → List Char) (xs : List Char) :
    ∀ (run ys : List Char) (c : Char), xs.getLast? = some c → isWordChar c = false →
      subTokensAux f run (xs ++ ys) = subTokensAux f run xs ++ subTokensAux f [] ys := by
  induction xs with
  | nil =>
    intro run ys c hc hw
    simp at hc
  | cons a t ih =>
    intro run ys c hc hw
    cases t with
    | nil =>
      obtain rfl : a = c := by simpa using hc
      simp [subTokensAux, hw]
    | cons b t2 =>
      rw [List.getLast?_cons_cons] at hc
      by_cases hwa : isWordChar a
      · rw [List.cons_append, subTokensAux_cons_pos f run a _ hwa,
          subTokensAux_cons_pos f run a _ hwa]
        exact ih (a :: run) ys c hc hw
      · rw [List.cons_append,
          subTokensAux_cons_neg f run a _ (by simpa using hwa),
          subTokensAux_cons_neg f run a _ (by simpa using hwa)]
        rw [ih [] ys c hc hw]
        simp

theorem subTokens_append (f : List Char → List Char) (xs ys : List Char) (c : Char)
    (hc : xs.getLast? = some c) (hw : isWordChar c = false) :
    subTokens f (xs ++ ys) = subTokens f xs ++ subTokens f ys :=
  subTokensAux_append f xs [] ys c hc hw

theorem isLowerHex_eq_false_of_isUpper (c : Char) (h : c.isUpper = true) :
    isLowerHex c = false := by
  simp only [Char.isUpper, Bool.and_eq_true, decide_eq_true_eq] at h
  simp only [isLowerHex, Char.isDigit, Char.le_def, Bool.or_eq_false_iff,
    Bool.and_eq_false_iff, decide_eq_false_iff_not, UInt32.le_def, BitVec.le_def] at *
  have ha : ('a'.val.toBitVec.toNat : Nat) = 97 := rfl
  have hf : ('f'.val.toBitVec.toNat : Nat) = 102 := rfl
  norm_num at *
  omega

theorem isDigit_eq_false_of_isUpper (c : Char) (h : c.isUpper = true) :
    c.isDigit = false := by
  simp only [Char.isUpper, Bool.and_eq_true, decide_eq_true_eq] at h
  simp only [Char.isDigit, Bool.and_eq_false_iff, decide_eq_false_iff_not,
    UInt32.le_def, BitVec.le_def] at *
  norm_num at *
  omega

theorem hexTok_eq_of_upper (run : List Char) (hup : ∃ c ∈ run, c.isUpper = true) :
    hexTok run = run := by
  obtain ⟨c, hc, hcu⟩ := hup
  cases hall : run.all isLowerHex with
  | false => simp [hexTok, hall]
  | true =>
    have h := List.all_eq_true.mp hall c hc
    rw [isLowerHex_eq_false_of_isUpper c hcu] at h
    cases h

theorem numTok_eq_of_upper (run : List Char) (hup : ∃ c ∈ run, c.isUpper = true) :
    numTok run = run := by
  obtain ⟨c, hc, hcu⟩ := hup
  cases hall : run.all Char.isDigit with
  | false => simp [numTok, hall]
  | true =>
    have h := List.all_eq_true.mp hall c hc
    rw [isDigit_eq_false_of_isUpper c hcu] at h
    cases h

/-- C10 amended: a maximal word token containing an uppercase letter is
never replaced by the hex-id scrub (which only fires on all-lowercase
hex tokens of length ≥ 8) nor by the long-number scrub, and `subHexId`
leaves it verbatim in place within any surrounding context — although
a later normalization step of the same path (URL, key=value,
brace/bracket collapse, 80-char truncation) may still rewrite it, so
otherwise-identical messages differing in such tokens do not always
produce distinct signatures, as the counterexample records. -/
theorem subHexId_uppercase_token_preserved
    (run : List Char) (hw : run.all isWordChar = true) (hne : run ≠ [])
    (hup : ∃ c ∈ run, c.isUpper = true) :
    (hexTok run = run ∧ numTok run = run)
    ∧ ∀ pre post : List Char,
        (pre = [] ∨ ∃ c, pre.getLast? = some c ∧ isWordChar c = false) →
        (post = [] ∨ ∃ c, post.head? = some c ∧ isWordChar c = false) →
        subHexId (pre ++ run ++ post) = subHexId pre ++ run ++ subHexId post := by
  refine ⟨⟨hexTok_eq_of_upper run hup, numTok_eq_of_upper run hup⟩, ?_⟩
  intro pre post hpre hpost
  have hptw : post.takeWhile isWordChar = [] := by
    rcases hpost with rfl | ⟨c, hc, hcw⟩
    · rfl
    · cases post with
      | nil => rfl
      | cons d ds =>
        obtain rfl : d = c := by simpa using hc
        simp [List.takeWhile_cons, hcw]
  have hpdw : post.dropWhile isWordChar = post := by
    rcases hpost with rfl | ⟨c, hc, hcw⟩
    · rfl
    · cases post with
      | nil => rfl
      | cons d ds =>
        obtain rfl : d = c := by simpa using hc
        simp [List.dropWhile_cons, hcw]
  have hmid : subHexId (run ++ post) = run ++ subHexId post := by
    cases run with
    | nil => exact absurd rfl hne
    | cons c t =>
      have hwc : isWordChar c = true := List.all_eq_true.mp hw c (List.mem_cons_self _ _)
      have hwt : ∀ a ∈ t, isWordChar a = true := fun a ha =>
        List.all_eq_true.mp hw a (List.mem_cons_of_mem _ ha)
      show subTokens hexTok ((c :: t) ++ post) = (c :: t) ++ subTokens hexTok post
      rw [List.cons_append, subTokens_cons, if_pos hwc,
        List.takeWhile_append_of_pos hwt, List.dropWhile_append_of_pos hwt,
        hptw, hpdw, List.append_nil, hexTok_eq_of_upper (c :: t) hup]
  rcases hpre with rfl | ⟨c, hc, hcw⟩
  · simpa [subHexId, subTokens, subTokensAux] using hmid
  · rw [List.append_assoc]
    show subTokens hexTok (pre ++ (run ++ post)) = _
    rw [subTokens_append hexTok pre (run ++ post) c hc hcw]
    rw [show subTokens hexTok (run ++ post) = subHexId (run ++ post) from rfl, hmid]
    simp [subHexId]

/-- Witness for the amended C10 at a concrete input. -/
theorem subHexId_uppercase_token_preserved_witness :
    hexTok "9A8F7E6D1C2B".toList = "9A8F7E6D1C2B".toList
    ∧ subHexId ("user ".toList ++ "9A8F7E6D1C2B".toList ++ " ok".toList)
        = subHexId "user ".toList ++ "9A8F7E6D1C2B".toList ++ subHexId " ok".toList := by
  have h := subHexId_uppercase_token_preserved "9A8F7E6D1C2B".toList
    (by decide) (by decide) ⟨'A', by decide, by decide⟩
  exact ⟨h.1.1, h.2 "user ".toList " ok".toList
    (Or.inr ⟨' ', by decide, by decide⟩) (Or.inr ⟨' ', by decide, by decide⟩)⟩
